import Mathlib

/-!
Verification of the rombo ROM-collection manager.

This file gives a shallow embedding of the core of the repository:
the dat index (datafile.go: NewDatafile, Merge, findROMBySHA1/CRC,
deleteROM, Games, Marshal), the layout strategies (layout.go), the
zip handling (zip.go), the reconciliation pipeline handlers
(pipeline.go: verifyFile, exportFile, cleanFile, exportZip, readZip)
threaded over an explicit filesystem state, the engine constructor
(rombo.go: New) and the CLI verify tail (main.go).

Machine strings are Lean Strings, sizes are Nat, file contents are
abstracted to their observable attributes (SHA-1 hex, byte length,
CRC-32 hex), XML documents are lists of game nodes each holding a
list of rom nodes, and Go errors become an explicit error type.
-/

namespace Rombo

/-- Error kinds of the engine (spec section 7). -/
inductive RErr where
  | ambiguousRom
  | noAlphanumeric
  | badElement (tag : String)
  | ioErr
  | parseErr
  deriving DecidableEq, Repr

/-! ## Go string / path helpers

Models of the Go standard-library functions the source uses:
strings.Contains / HasPrefix, path/filepath Ext, Clean, Join, Dir,
Base.  Paths use the unix separator. -/

/-- ASCII lowering of one character (Go strings.ToLower on ASCII). -/
def lowerChar (c : Char) : Char :=
  if 'A' ≤ c ∧ c ≤ 'Z' then Char.ofNat (c.toNat + 32) else c

/-- ASCII raising of one character (Go strings.ToUpper on ASCII). -/
def upperChar (c : Char) : Char :=
  if 'a' ≤ c ∧ c ≤ 'z' then Char.ofNat (c.toNat - 32) else c

/-- Go strings.ToLower (ASCII). -/
def strLower (s : String) : String := String.mk (s.data.map lowerChar)

/-- Go strings.ToUpper (ASCII). -/
def strUpper (s : String) : String := String.mk (s.data.map upperChar)

/-- Drop the first n characters of a string. -/
def dropStr (s : String) (n : Nat) : String := String.mk (s.data.drop n)

/-- Split a path at every slash (Go strings.Split with a slash). -/
def splitSlashAux : List Char → List Char → List String
  | [], acc => [String.mk acc.reverse]
  | c :: t, acc =>
    if c = '/' then String.mk acc.reverse :: splitSlashAux t []
    else splitSlashAux t (c :: acc)

/-- Split a string at every slash. -/
def splitSlash (s : String) : List String := splitSlashAux s.data []

/-- Join strings with a slash between consecutive elements. -/
def joinSlash : List String → String
  | [] => ""
  | [x] => x
  | x :: y :: t => x ++ "/" ++ joinSlash (y :: t)

/-- Join strings with a comma between consecutive elements. -/
def joinComma : List String → String
  | [] => ""
  | [x] => x
  | x :: y :: t => x ++ "," ++ joinComma (y :: t)

/-- Character-list version of Go strings.HasPrefix. -/
def leadsWith : List Char → List Char → Bool
  | [], _ => true
  | _ :: _, [] => false
  | a :: as, b :: bs => a == b && leadsWith as bs

/-- Character-list version of Go strings.Contains. -/
def containsSeq (sub : List Char) : List Char → Bool
  | [] => leadsWith sub []
  | c :: t => leadsWith sub (c :: t) || containsSeq sub t

/-- Go strings.HasPrefix on Strings. -/
def goHasStart (s pre : String) : Bool := leadsWith pre.data s.data

/-- Go strings.Contains on Strings. -/
def goContains (s sub : String) : Bool := containsSeq sub.data s.data

/-- filepath.Ext: the suffix of the last element starting at the final dot,
empty when the last element has no dot.  Implemented with a forward scan:
a dot starts a candidate extension, a slash clears it. -/
def extScan : List Char → String → String
  | [], acc => acc
  | c :: t, acc =>
    if c = '/' then extScan t ""
    else if c = '.' then extScan t (String.mk ('.' :: t))
    else extScan t acc

/-- filepath.Ext on a path string. -/
def extOf (p : String) : String := extScan p.data ""

/-- One step of the filepath.Clean element scan: drop empty and dot
elements, resolve dot-dot against the stack. -/
def cleanSegs (rooted : Bool) : List String → List String → List String
  | [], stack => stack.reverse
  | s :: rest, stack =>
    if s = "" ∨ s = "." then cleanSegs rooted rest stack
    else if s = ".." then
      match stack with
      | top :: others =>
        if top = ".." then cleanSegs rooted rest (".." :: top :: others)
        else cleanSegs rooted rest others
      | [] => if rooted then cleanSegs rooted rest [] else cleanSegs rooted rest [".."]
    else cleanSegs rooted rest (s :: stack)

/-- filepath.Clean for slash-separated paths. -/
def goClean (p : String) : String :=
  if p = "" then "."
  else
    let rooted := goHasStart p "/"
    let body := joinSlash (cleanSegs rooted (splitSlash p) [])
    if rooted then (if body = "" then "/" else "/" ++ body)
    else (if body = "" then "." else body)

/-- filepath.Join: drop empty elements, join with a slash, Clean. -/
def goJoin (elems : List String) : String :=
  match elems.filter (fun e => !(e == "")) with
  | [] => ""
  | es => goClean (joinSlash es)

/-- filepath.Dir: everything up to the final slash, Cleaned; dot when
there is no slash. -/
def goDir (p : String) : String :=
  match p.data.reverse.dropWhile (fun c => !(c == '/')) with
  | [] => "."
  | l => goClean (String.mk l.reverse)

/-- filepath.Base: the last non-empty element; dot for the empty path. -/
def goBase (p : String) : String :=
  if p = "" then "."
  else
    match (splitSlash p).filter (fun e => !(e == "")) with
    | [] => "/"
    | es => es.getLastD "."

/-- ioutil.TempFile(filepath.Dir(path), "."+filepath.Base(path)) creates a
file in the directory of path whose name starts with a dot followed by the
base name of path; the model omits the random suffix and the theorems carry
a freshness hypothesis instead. -/
def tempName (p : String) : String := goJoin [goDir p, "." ++ goBase p]

/-! ## The regexp replacements of the MegaSD layout

Go regexp.ReplaceAllString for the three concrete patterns used in
layout.go.  The class backslash-s is the RE2 whitespace class
(tab, newline, form feed, carriage return, space).  Every pattern has
the shape "one or more whitespace, an opening parenthesis, a fixed
alternation of literal-and-single-whitespace tokens (with one-or-more
digits in the Disc pattern), a closing parenthesis", so matching is
deterministic: the maximal whitespace run must be followed by the
parenthesis, and alternatives are mutually exclusive. -/

/-- The RE2 whitespace class. -/
def isGoSpace (c : Char) : Bool :=
  c == ' ' || c == '\t' || c == '\n' || c == '\x0c' || c == '\r'

/-- Length of the maximal leading run satisfying p. -/
def spanLen (p : Char → Bool) : List Char → Nat
  | [] => 0
  | c :: t => if p c then spanLen p t + 1 else 0

/-- One token of a pattern body: a literal character, one whitespace
character, or a maximal non-empty digit run. -/
inductive Tok where
  | ch (c : Char)
  | ws
  | digs
  deriving Repr

/-- Match a token sequence at the head of the input, returning the number
of characters consumed. -/
def matchToks : List Tok → List Char → Option Nat
  | [], _ => some 0
  | Tok.ch c :: ts, x :: xs => if x = c then (matchToks ts xs).map (· + 1) else none
  | Tok.ws :: ts, x :: xs => if isGoSpace x then (matchToks ts xs).map (· + 1) else none
  | Tok.digs :: ts, xs =>
    let d := spanLen Char.isDigit xs
    if d = 0 then none else (matchToks ts (xs.drop d)).map (· + d)
  | _ :: _, [] => none

/-- First alternative that matches, in order. -/
def altsMatch : List (List Tok) → List Char → Option Nat
  | [], _ => none
  | a :: rest, cs =>
    match matchToks a cs with
    | some k => some k
    | none => altsMatch rest cs

/-- Match "whitespace-plus, open paren, one alternative, close paren" at
the head of the input. -/
def tagMatch (alts : List (List Tok)) (cs : List Char) : Option Nat :=
  let w := spanLen isGoSpace cs
  if w = 0 then none
  else
    match cs.drop w with
    | '(' :: r1 =>
      match altsMatch alts r1 with
      | some k =>
        match r1.drop k with
        | ')' :: _ => some (w + 1 + k + 1)
        | _ => none
      | none => none
    | _ => none

/-- Replace every leftmost non-overlapping match, fuel-indexed; the fuel is
always at least the input length so it never runs out. -/
def replaceAllF : Nat → (List Char → Option Nat) → List Char → List Char
  | 0, _, cs => cs
  | _ + 1, _, [] => []
  | fuel + 1, m, c :: rest =>
    match m (c :: rest) with
    | some k => replaceAllF fuel m ((c :: rest).drop (max k 1))
    | none => c :: replaceAllF fuel m rest

/-- regexp.ReplaceAllString of a tag pattern with the empty string. -/
def stripTag (alts : List (List Tok)) (s : String) : String :=
  String.mk (replaceAllF (s.data.length + 1) (tagMatch alts) s.data)

/-- Literal characters of a string as pattern tokens. -/
def litToks (s : String) : List Tok := s.data.map Tok.ch

/-- Tokens "Disc, one whitespace, digits" of the Disc pattern body. -/
def discToks : List Tok := litToks "Disc" ++ [Tok.ws, Tok.digs]

/-- Body alternatives of the Supreme Warrior per-disc pattern. -/
def supremeToks : List (List Tok) :=
  [litToks "Fire" ++ [Tok.ws, Tok.ch '&', Tok.ws] ++ litToks "Earth",
   litToks "Wind" ++ [Tok.ws, Tok.ch '&', Tok.ws] ++ litToks "Fang" ++ [Tok.ws] ++ litToks "Tu"]

/-- Body alternatives of the Slam City per-disc pattern. -/
def slamToks : List (List Tok) :=
  [litToks "Fingers", litToks "Juice", litToks "Mad" ++ [Tok.ws] ++ litToks "Dog", litToks "Smash"]

/-- The three regexp removals the MegaSD cue/bin branch applies to the game
name, in source order: the Disc pattern, then the Supreme Warrior tags,
then the Slam City tags. -/
def discStrip (game : String) : String :=
  stripTag slamToks (stripTag supremeToks (stripTag [discToks] game))

/-! ## The dat index (datafile.go)

A parsed dat document is a list of game nodes, each holding its name
attribute and its rom child nodes; a rom node holds its name, size,
crc and sha1 attributes (the size attribute read as a decimal
number).  A Datafile holds two documents parsed from the same bytes:
input is the immutable catalogue, output is the remaining view. -/

/-- One rom element: name, size, crc and sha1 attributes. -/
structure RomEntry where
  name : String
  size : Nat
  crc : String
  sha1 : String
  deriving DecidableEq, Repr

/-- One game element: name attribute and rom children. -/
structure GameNode where
  name : String
  roms : List RomEntry
  deriving DecidableEq, Repr

/-- A dat document: the game children of the datafile root. -/
abbrev Document := List GameNode

/-- The ROM value produced by the hash lookups: the parent game name and
the rom name from the matched node, together with the size, crc and sha1
attributes carried along for the export comparisons (spec section 4.4:
each hit yields game, filename, size, crc, sha1; the revision of the ROM
struct with the hash fields is the one pipeline.go compiles against). -/
structure ROM where
  Game : String
  Filename : String
  Size : Nat
  CRC : String
  SHA1 : String
  deriving DecidableEq, Repr

/-- All rom nodes of a document in document order, each paired with its
parent game name. -/
def romEntries : Document → List (String × RomEntry)
  | [] => []
  | g :: t => g.roms.map (fun r => (g.name, r)) ++ romEntries t

/-- A rom identity: parent game name and rom name. -/
abbrev RomId := String × String

/-- Identity of a document entry. -/
def idOf (p : String × RomEntry) : RomId := (p.1, p.2.name)

/-- Membership of an identity in a list of identities. -/
def idMem (x : RomId) : List RomId → Bool
  | [] => false
  | y :: t => if x = y then true else idMem x t

/-- The size-and-sha1 node test of findROMBySHA1: the size attribute
equals the queried size and the sha1 attribute equals the lowercase or
the uppercase spelling of the queried hash. -/
def shaHit (r : RomEntry) (size : Nat) (sha : String) : Bool :=
  r.size == size && (r.sha1 == strLower sha || r.sha1 == strUpper sha)

/-- The size-and-crc node test of findROMByCRC. -/
def crcHit (r : RomEntry) (size : Nat) (crc : String) : Bool :=
  r.size == size && (r.crc == strLower crc || r.crc == strUpper crc)

/-- Build the ROM value of a matched node. -/
def romOf (p : String × RomEntry) : ROM :=
  { Game := p.1, Filename := p.2.name, Size := p.2.size, CRC := p.2.crc, SHA1 := p.2.sha1 }

/-- findROMBySHA1: all rom nodes of the catalogue whose size and sha1
attributes match, in document order. -/
def findROMBySHA1 (doc : Document) (size : Nat) (sha : String) : List ROM :=
  ((romEntries doc).filter (fun p => shaHit p.2 size sha)).map romOf

/-- findROMByCRC: all rom nodes of the catalogue whose size and crc
attributes match, in document order. -/
def findROMByCRC (doc : Document) (size : Nat) (crc : String) : List ROM :=
  ((romEntries doc).filter (fun p => crcHit p.2 size crc)).map romOf

/-- Number of nodes matched by the deleteROM search
game[@name=rom.Game]/rom[@name=rom.Filename]. -/
def countId (doc : Document) (id : RomId) : Nat :=
  ((romEntries doc).filter (fun p => idOf p = id)).length

/-- Remove every rom node carrying an identity in ids, and unlink a game
node when removal empties it (a game that had no rom children to begin
with is never touched). -/
def stripIds (doc : Document) (ids : List RomId) : Document :=
  doc.filterMap fun g =>
    let keep := g.roms.filter fun r => !idMem (g.name, r.name) ids
    if keep.isEmpty && !g.roms.isEmpty then none else some { name := g.name, roms := keep }

/-- The unlink loop of deleteROM: remove the matched rom node from its
parent game, and unlink the game when no rom children are left. -/
def eraseROM (doc : Document) (rom : ROM) : Document :=
  doc.filterMap fun g =>
    if g.name = rom.Game then
      let keep := g.roms.filter fun r => !(r.name == rom.Filename)
      if keep.isEmpty && !g.roms.isEmpty then none else some { name := g.name, roms := keep }
    else some g

/-- deleteROM (called seenROM by the pipeline): search the remaining
document for game[@name]/rom[@name]; more than one match is an error and
removes nothing; otherwise the matched node (if any) is unlinked and its
game pruned when emptied. -/
def deleteROM (doc : Document) (rom : ROM) : Except RErr Document :=
  if 1 < countId doc (rom.Game, rom.Filename) then Except.error RErr.ambiguousRom
  else Except.ok (eraseROM doc rom)

/-- Modelled from the spec (section 4.4, seen): within remaining, find the
unique game[@name=G]/rom[@name=F]; if more than one is found, fail with
AmbiguousRom; unlink the rom; if the game becomes empty, unlink it too.
Written from the words of the spec, for comparison with deleteROM. -/
def specSeen (doc : Document) (rom : ROM) : Except RErr Document :=
  let hits := (romEntries doc).filter fun p => idOf p = (rom.Game, rom.Filename)
  if 1 < hits.length then Except.error RErr.ambiguousRom
  else Except.ok (doc.filterMap fun g =>
    let keep := g.roms.filter fun r => !(g.name = rom.Game ∧ r.name = rom.Filename)
    if keep.length < g.roms.length ∧ keep = [] then none
    else some { name := g.name, roms := keep })

/-- A Datafile: the catalogue document (input) and the remaining document
(output), both parsed from the same bytes. -/
structure DatafileM where
  input : Document
  output : Document
  deriving DecidableEq, Repr

/-- NewDatafile parses the same bytes twice, so input and output start
equal. -/
def newDatafile (doc : Document) : DatafileM := { input := doc, output := doc }

/-- A top-level child of the root element of a dat file being merged. -/
inductive DatElem where
  | header
  | game (g : GameNode)
  | other (tag : String)
  deriving Repr

/-- The Merge loop body over the children already walked: header children
are skipped, game children are duplicated and appended after the last
child of the output root, any other tag is an error. -/
def mergeGames (out : Document) : List DatElem → Except RErr Document
  | [] => Except.ok out
  | DatElem.header :: t => mergeGames out t
  | DatElem.game g :: t => mergeGames (out ++ [g]) t
  | DatElem.other tag :: _ => Except.error (RErr.badElement tag)

/-- Merge: walk the children of the parsed other document and append its
games to the output (remaining) document only. -/
def mergeDatafile (d : DatafileM) (elems : List DatElem) : Except RErr DatafileM :=
  match mergeGames d.output elems with
  | Except.ok o => Except.ok { d with output := o }
  | Except.error e => Except.error e

/-- Games: the count of game elements of the output document. -/
def gamesCount (d : Document) : Nat := d.length

/-! ## Layout strategies (layout.go) -/

/-- The No-Intro BIOS name marker. -/
def noIntroBIOS : String := "[BIOS] "

/-- Trim the No-Intro BIOS marker from the front of a game name. -/
def dropBios (s : String) : String :=
  if goHasStart s noIntroBIOS then dropStr s noIntroBIOS.length else s

/-- firstAlphanumeric scan over the characters after the BIOS marker. -/
def firstAlnumScan : List Char → Except RErr String
  | [] => Except.error RErr.noAlphanumeric
  | c :: t =>
    if 'A' ≤ c ∧ c ≤ 'Z' then Except.ok (String.mk [c])
    else if 'a' ≤ c ∧ c ≤ 'z' then Except.ok (String.mk [upperChar c])
    else if '0' ≤ c ∧ c ≤ '9' then Except.ok "#"
    else firstAlnumScan t

/-- The parent-bucket helper: the uppercased first letter of the game name
after stripping the BIOS marker, a hash mark for a digit, an error when no
alphanumeric character exists. -/
def firstAlphanumeric (s : String) : Except RErr String :=
  firstAlnumScan (dropBios s).data

/-- The console markers that send a BIOS image to the BIOS directory. -/
def biosTags : List String :=
  ["32X", "Aiwa CSD-GM1", "LaserActive", "Mega-CD", "Multi-Mega",
   "Sega CD", "Sega Master System", "Sega Mega Drive", "WonderMega"]

/-- The MegaSD BIOS test: the rom filename carries the BIOS marker and
contains one of the recognised console names. -/
def megaSDBios (filename : String) : Bool :=
  goHasStart filename noIntroBIOS && biosTags.any (fun t => goContains filename t)

/-- MegaSD.exportPath. -/
def megaSDExportPath (rom : ROM) : Except RErr (String × Bool × String) :=
  match firstAlphanumeric rom.Game with
  | Except.error e => Except.error e
  | Except.ok parent =>
    if megaSDBios rom.Filename then
      Except.ok (goJoin ["BIOS", rom.Filename], false, "")
    else if extOf rom.Filename = ".sms" then
      Except.ok (goJoin ["Master System & Mark III", parent, rom.Filename], false, "")
    else if extOf rom.Filename = ".md" then
      Except.ok (goJoin ["Mega Drive & Genesis", parent, rom.Filename], false, "")
    else if extOf rom.Filename = ".32x" then
      Except.ok (goJoin ["32X", parent, rom.Filename], false, "")
    else if extOf rom.Filename = ".cue" ∨ extOf rom.Filename = ".bin" then
      Except.ok (goJoin ["Mega-CD & Sega CD", parent, discStrip rom.Game, rom.Filename], false, "")
    else
      Except.ok (goJoin [parent, rom.Filename], false, "")

/-- The layout variants. -/
inductive Layout where
  | simple
  | jaguar
  | megasd
  | sd2snes
  deriving DecidableEq, Repr

/-- exportPath of each layout: SimpleCompressed archives the rom into a
zip named after the game, JaguarSD and SD2SNES store the rom loose under
its own name, MegaSD buckets as above. -/
def exportPath (lay : Layout) (rom : ROM) : Except RErr (String × Bool × String) :=
  match lay with
  | Layout.simple => Except.ok (rom.Game ++ ".zip", true, rom.Filename)
  | Layout.jaguar => Except.ok (rom.Filename, false, "")
  | Layout.sd2snes => Except.ok (rom.Filename, false, "")
  | Layout.megasd => megaSDExportPath rom

/-! ## The engine constructor (rombo.go) -/

/-- The logger collaborator, abstracted. -/
abbrev LoggerM := Unit

/-- The engine value: datafile, destructive flag and layout. -/
structure RomboM where
  datafile : DatafileM
  destructive : Bool
  layout : Layout
  deriving Repr

/-- New: a missing datafile or a missing logger is an error; a missing
layout silently falls back to SimpleCompressed. -/
def romboNew (datafile : Option DatafileM) (logger : Option LoggerM)
    (destructive : Bool) (layout : Option Layout) : Except String RomboM :=
  match datafile with
  | none => Except.error "need a database"
  | some df =>
    match logger with
    | none => Except.error "need a logger"
    | some _ =>
      Except.ok { datafile := df, destructive := destructive, layout := layout.getD Layout.simple }

/-! ## Filesystem and zip model (zip.go, file.go, sha1.go)

A file is abstracted to its observable attributes: the SHA-1 hex digest
and byte length that sha1Sum reads, and the CRC-32 hex that zipCRC reads
for a zip member.  A file that is a zip archive additionally carries its
member list.  The filesystem is a finite map from paths to files,
represented as an association list operated through fsLookup, fsInsert
and fsErase. -/

/-- Observable content attributes of a stored byte sequence. -/
structure FileData where
  sha1 : String
  size : Nat
  crc : String
  deriving DecidableEq, Repr

/-- One zip member: its name and content attributes (the archive records
the CRC-32 and the uncompressed size that the pipeline reads). -/
structure ZipMember where
  name : String
  data : FileData
  deriving DecidableEq, Repr

/-- A file on disk: raw attributes, plus the member list when the file is
a readable zip archive. -/
structure File where
  data : FileData
  zip : Option (List ZipMember)
  deriving DecidableEq, Repr

/-- The filesystem: a finite path-to-file map as an association list. -/
abbrev FS := List (String × File)

/-- Look a path up. -/
def fsLookup : FS → String → Option File
  | [], _ => none
  | (q, f) :: t, p => if q = p then some f else fsLookup t p

/-- Remove a path. -/
def fsErase : FS → String → FS
  | [], _ => []
  | (q, f) :: t, p => if q = p then fsErase t p else (q, f) :: fsErase t p

/-- Create or overwrite a path. -/
def fsInsert (fs : FS) (p : String) (f : File) : FS := (p, f) :: fsErase fs p

/-- Byte-order comparison of names (the torrentzip sort order). -/
def strLeChars : List Char → List Char → Bool
  | [], _ => true
  | _ :: _, [] => false
  | a :: as, b :: bs => if a < b then true else if b < a then false else strLeChars as bs

/-- Name order on strings. -/
def strLe (a b : String) : Bool := strLeChars a.data b.data

/-- Insert a member into a name-sorted list. -/
def insertMember (m : ZipMember) : List ZipMember → List ZipMember
  | [] => [m]
  | x :: t => if strLe m.name x.name then m :: x :: t else x :: insertMember m t

/-- The torrentzip writer sorts members by name on close. -/
def sortMembers : List ZipMember → List ZipMember
  | [] => []
  | m :: t => insertMember m (sortMembers t)

/-- Raw attributes of a deterministic archive: a function of the member
list alone (the torrentzip contract: equal contents give byte-equal
archives). -/
def archSha (ms : List ZipMember) : String :=
  "zip:" ++ joinComma (ms.map fun m => m.name ++ "/" ++ m.data.sha1)

/-- The file written by the deterministic zip writer for a member list. -/
def archiveFile (ms : List ZipMember) : File :=
  { data := { sha1 := archSha ms, size := 0, crc := "" }, zip := some ms }

/-- The just-created empty temp file. -/
def emptyFile : File := { data := { sha1 := "", size := 0, crc := "" }, zip := none }

/-- createOrUpdateZip: make a dot-prefixed temp file beside path, copy
every existing member except name into a fresh deterministic zip, append
name from the reader, rename the temp file over path; on any error the
deferred remove deletes the temp file and path is untouched.  A missing
path skips the copy loop; an unreadable one is an error.  The reader
argument delivers the new member's content or the copy error. -/
def createOrUpdateZip (fs : FS) (path name : String) (reader : Except RErr FileData) :
    Option RErr × FS :=
  let tmp := tempName path
  let fs1 := fsInsert fs tmp emptyFile
  match fsLookup fs1 path with
  | some f =>
    match f.zip with
    | none => (some RErr.parseErr, fsErase fs1 tmp)
    | some members =>
      match reader with
      | Except.error e => (some e, fsErase fs1 tmp)
      | Except.ok c =>
        let ms := sortMembers (members.filter (fun m => !(m.name == name)) ++ [{ name := name, data := c }])
        (none, fsInsert (fsErase fs1 tmp) path (archiveFile ms))
  | none =>
    match reader with
    | Except.error e => (some e, fsErase fs1 tmp)
    | Except.ok c =>
      (none, fsInsert (fsErase fs1 tmp) path (archiveFile (sortMembers [{ name := name, data := c }])))

/-! ## The reconciliation handlers (pipeline.go)

Each handler is threaded over an explicit state: the filesystem, the
remaining document, and the log lines written so far.  A handler returns
the state reached together with the error that aborted it, if any; with
no mutation the state passes through unchanged, exactly as the worker
loop leaves the world when it posts an error. -/

/-- The pipeline state of one run: disk, remaining document, log. -/
structure PState where
  fs : FS
  rem : Document
  log : List String
  deriving DecidableEq, Repr

/-- Append a logger line. -/
def addLog (st : PState) (line : String) : PState := { st with log := st.log ++ [line] }

/-- The destructive tail of the add-to-archive action of exportFile: open
the source file and run createOrUpdateZip on the destination. -/
def exportFileArchive (dest : Bool) (file fullpath name : String) (st1 : PState) :
    PState × Option RErr :=
  if dest then
    match fsLookup st1.fs file with
    | none => (st1, some RErr.ioErr)
    | some src =>
      match createOrUpdateZip st1.fs fullpath name (Except.ok src.data) with
      | (some e, fs2) => ({ st1 with fs := fs2 }, some e)
      | (none, fs2) => ({ st1 with fs := fs2 }, none)
  else (st1, none)

/-- The copy phase of exportFile for one rom: compare the destination
(archive member by CRC and size, loose file by SHA-1 and size) and act
when missing or different, gated by the destructive flag. -/
def exportFileCopy (dest : Bool) (dir file sha : String) (size : Nat) (rom : ROM)
    (relpath : String) (zipped : Bool) (name : String) (st : PState) : PState × Option RErr :=
  let fullpath := goJoin [dir, relpath]
  if zipped then
    match fsLookup st.fs fullpath with
    | some f =>
      match f.zip with
      | none => (st, some RErr.parseErr)
      | some ms =>
        let need :=
          match ms.find? (fun m => m.name == name) with
          | none => true
          | some m => !(m.data.crc == rom.CRC && m.data.size == size)
        if need then
          exportFileArchive dest file fullpath name
            (addLog st ("Adding \"" ++ file ++ "\" to \"" ++ fullpath ++ "\" as \"" ++ name ++ "\""))
        else (st, none)
    | none =>
      exportFileArchive dest file fullpath name
        (addLog st ("Adding \"" ++ file ++ "\" to \"" ++ fullpath ++ "\" as \"" ++ name ++ "\""))
  else
    let need :=
      match fsLookup st.fs fullpath with
      | none => true
      | some tf => !(tf.data.sha1 == sha && tf.data.size == size)
    if need then
      let st1 := addLog st ("Copying \"" ++ file ++ "\" to \"" ++ fullpath ++ "\"")
      if dest then
        match fsLookup st1.fs file with
        | none => (st1, some RErr.ioErr)
        | some src => ({ st1 with fs := fsInsert st1.fs fullpath src }, none)
      else (st1, none)
    else (st, none)

/-- The per-rom loop of exportFile: resolve the layout placement, run the
copy phase, and mark the rom seen. -/
def exportFileRoms (dest : Bool) (lay : Layout) (dir file sha : String) (size : Nat) :
    PState → List ROM → PState × Option RErr
  | st, [] => (st, none)
  | st, rom :: rest =>
    match exportPath lay rom with
    | Except.error e => (st, some e)
    | Except.ok (relpath, zipped, name) =>
      match exportFileCopy dest dir file sha size rom relpath zipped name st with
      | (st2, some e) => (st2, some e)
      | (st2, none) =>
        match deleteROM st2.rem rom with
        | Except.error e => (st2, some e)
        | Except.ok r2 => exportFileRoms dest lay dir file sha size { st2 with rem := r2 } rest

/-- The match loop of cleanFile: the scanned file is retained when some
candidate placement resolves to its own path. -/
def cleanMatch (lay : Layout) (dir file : String) : List ROM → Except RErr Bool
  | [] => Except.ok false
  | rom :: rest =>
    match exportPath lay rom with
    | Except.error e => Except.error e
    | Except.ok (relpath, _, _) =>
      if goJoin [dir, relpath] = file then Except.ok true else cleanMatch lay dir file rest

/-- cleanFile: delete the scanned file (destructive only) when no
candidate placement matches it. -/
def cleanFileH (dest : Bool) (lay : Layout) (dir file : String) (roms : List ROM)
    (st : PState) : PState × Option RErr :=
  match cleanMatch lay dir file roms with
  | Except.error e => (st, some e)
  | Except.ok true => (st, none)
  | Except.ok false =>
    let st1 := addLog st ("Deleting \"" ++ file ++ "\"")
    if dest then ({ st1 with fs := fsErase st1.fs file }, none) else (st1, none)

/-- verifyFile: mark every matched rom seen. -/
def verifyFileH : PState → List ROM → PState × Option RErr
  | st, [] => (st, none)
  | st, rom :: rest =>
    match deleteROM st.rem rom with
    | Except.error e => (st, some e)
    | Except.ok r2 => verifyFileH { st with rem := r2 } rest

/-- The retention test of readZip: a member stays when some rom matched by
its CRC and size resolves to this very archive with this member name. -/
def keepTest (lay : Layout) (dir file : String) (mname : String) : List ROM → Except RErr Bool
  | [] => Except.ok false
  | rom :: rest =>
    match exportPath lay rom with
    | Except.error e => Except.error e
    | Except.ok (relpath, _, name) =>
      if goJoin [dir, relpath] = file ∧ name = mname then Except.ok true
      else keepTest lay dir file mname rest

/-- The evictee scan of readZip over the member list. -/
def evicteesOf (lay : Layout) (M : Document) (dir file : String) :
    List ZipMember → Except RErr (List String)
  | [] => Except.ok []
  | m :: rest =>
    match keepTest lay dir file m.name (findROMByCRC M m.data.size m.data.crc) with
    | Except.error e => Except.error e
    | Except.ok true => evicteesOf lay M dir file rest
    | Except.ok false =>
      match evicteesOf lay M dir file rest with
      | Except.error e => Except.error e
      | Except.ok ev => Except.ok (m.name :: ev)

/-- readZip, the Clean handler for an archive: when every member is an
evictee the archive is deleted (destructive only); otherwise the intended
removals are logged and the function returns with the archive unchanged
(the prune code below that return is unreachable in the source). -/
def readZipH (dest : Bool) (lay : Layout) (M : Document) (dir : String)
    (st : PState) (file : String) : PState × Option RErr :=
  match fsLookup st.fs file with
  | none => (st, some RErr.ioErr)
  | some f =>
    match f.zip with
    | none => (st, some RErr.parseErr)
    | some ms =>
      match evicteesOf lay M dir file ms with
      | Except.error e => (st, some e)
      | Except.ok ev =>
        if ev.length = ms.length then
          let st1 := addLog st ("Deleting \"" ++ file ++ "\"")
          if dest then ({ st1 with fs := fsErase st1.fs file }, none) else (st1, none)
        else
          (ev.foldl (fun s n => addLog s ("would remove " ++ n ++ " from " ++ file)) st, none)

/-- The per-rom loop of exportZip for one member: a zipped destination is
only logged (the extract-into-archive branch is a logged no-op in the
source), a loose destination is compared by SHA-1 and length and extracted
when missing or different (destructive only); the rom is then marked
seen. -/
def exportZipActed (dest : Bool) (dir file : String) (m : ZipMember) (rom : ROM)
    (relpath : String) (zipped : Bool) (name : String) (st : PState) : PState :=
  let fullpath := goJoin [dir, relpath]
  if zipped then
    addLog st ("would extract " ++ m.name ++ " from " ++ file ++ " and add it to " ++ fullpath ++ " as " ++ name)
  else
    let need :=
      match fsLookup st.fs fullpath with
      | none => true
      | some tf => !(tf.data.sha1 == rom.SHA1 && tf.data.size == m.data.size)
    if need then
      let st1 := addLog st ("Extracting \"" ++ m.name ++ "\" from \"" ++ file ++ "\" to \"" ++ fullpath ++ "\"")
      if dest then { st1 with fs := fsInsert st1.fs fullpath { data := m.data, zip := none } }
      else st1
    else st

def exportZipRoms (dest : Bool) (lay : Layout) (dir file : String) (m : ZipMember) :
    PState → List ROM → PState × Option RErr
  | st, [] => (st, none)
  | st, rom :: rest =>
    match exportPath lay rom with
    | Except.error e => (st, some e)
    | Except.ok (relpath, zipped, name) =>
      match deleteROM (exportZipActed dest dir file m rom relpath zipped name st).rem rom with
      | Except.error e => (exportZipActed dest dir file m rom relpath zipped name st, some e)
      | Except.ok r2 =>
        exportZipRoms dest lay dir file m
          { exportZipActed dest dir file m rom relpath zipped name st with rem := r2 } rest

/-- The member loop of exportZip. -/
def exportZipMembers (dest : Bool) (lay : Layout) (M : Document) (dir file : String) :
    PState → List ZipMember → PState × Option RErr
  | st, [] => (st, none)
  | st, m :: rest =>
    match exportZipRoms dest lay dir file m st (findROMByCRC M m.data.size m.data.crc) with
    | (st2, some e) => (st2, some e)
    | (st2, none) => exportZipMembers dest lay M dir file st2 rest

/-- exportZip on one archive path: open it and walk its members. -/
def exportZipH (dest : Bool) (lay : Layout) (M : Document) (dir : String)
    (st : PState) (file : String) : PState × Option RErr :=
  match fsLookup st.fs file with
  | none => (st, some RErr.ioErr)
  | some f =>
    match f.zip with
    | none => (st, some RErr.parseErr)
    | some ms => exportZipMembers dest lay M dir file st ms

/-- The fileWorker prologue: hash the file, look the hash up in the
catalogue, hand the rom list to the per-action handler.  Export flavour. -/
def exportLooseStep (dest : Bool) (lay : Layout) (M : Document) (dir : String)
    (st : PState) (file : String) : PState × Option RErr :=
  match fsLookup st.fs file with
  | none => (st, some RErr.ioErr)
  | some f =>
    exportFileRoms dest lay dir file f.data.sha1 f.data.size st
      (findROMBySHA1 M f.data.size f.data.sha1)

/-- The fileWorker prologue, Clean flavour. -/
def cleanLooseStep (dest : Bool) (lay : Layout) (M : Document) (dir : String)
    (st : PState) (file : String) : PState × Option RErr :=
  match fsLookup st.fs file with
  | none => (st, some RErr.ioErr)
  | some f => cleanFileH dest lay dir file (findROMBySHA1 M f.data.size f.data.sha1) st

/-- Drive a per-file step over a worklist, aborting on the first error. -/
def runSteps (step : PState → String → PState × Option RErr) :
    PState → List String → PState × Option RErr
  | st, [] => (st, none)
  | st, f :: rest =>
    match step st f with
    | (st2, some e) => (st2, some e)
    | (st2, none) => runSteps step st2 rest

/-- Export: the loose worker over the loose stream and the archive worker
over the zip stream (the streams are the classifier's split of the walked
source trees; worker interleaving does not change the reached state in
this sequential model). -/
def exportRun (dest : Bool) (lay : Layout) (M : Document) (dir : String)
    (loose zips : List String) (st : PState) : PState × Option RErr :=
  match runSteps (exportLooseStep dest lay M dir) st loose with
  | (st2, some e) => (st2, some e)
  | (st2, none) => runSteps (exportZipH dest lay M dir) st2 zips

/-- Clean over the target tree: cleanFile for loose files, readZip for
archives. -/
def cleanRun (dest : Bool) (lay : Layout) (M : Document) (dir : String)
    (loose zips : List String) (st : PState) : PState × Option RErr :=
  match runSteps (cleanLooseStep dest lay M dir) st loose with
  | (st2, some e) => (st2, some e)
  | (st2, none) => runSteps (readZipH dest lay M dir) st2 zips

/-! ## The datafile effect of Verify

Verify drives verifyFile over the loose stream and exportZip (with an
empty target) over the archive stream.  Only the remaining document is
tracked here: the filesystem probes of exportZip influence logging and
extraction but never the datafile, while a layout placement error or an
ambiguous seen aborts the run.  An observation is the content evidence a
scanned file contributes: its length and SHA-1 for a loose file, the
name, uncompressed size and CRC-32 of every member for a zip. -/

/-- One scanned zip member as the verify worker sees it. -/
structure MemberObs where
  name : String
  size : Nat
  crc : String
  deriving DecidableEq, Repr

/-- One scanned file. -/
inductive Obs where
  | loose (sha : String) (size : Nat)
  | zipped (members : List MemberObs)
  deriving Repr

/-- The identity of a looked-up ROM. -/
def romIdOf (r : ROM) : RomId := (r.Game, r.Filename)

/-- verifyFile: mark each rom of the lookup seen, aborting on error. -/
def seenList (R : Document) : List ROM → Except RErr Document
  | [] => Except.ok R
  | rom :: rest =>
    match deleteROM R rom with
    | Except.error e => Except.error e
    | Except.ok R2 => seenList R2 rest

/-- The per-rom loop of exportZip as it acts on the remaining document:
resolve the placement (its error aborts), then mark the rom seen. -/
def seenListPath (lay : Layout) (R : Document) : List ROM → Except RErr Document
  | [] => Except.ok R
  | rom :: rest =>
    match exportPath lay rom with
    | Except.error e => Except.error e
    | Except.ok _ =>
      match deleteROM R rom with
      | Except.error e => Except.error e
      | Except.ok R2 => seenListPath lay R2 rest

/-- The member loop of exportZip on the remaining document. -/
def seenMembers (M : Document) (lay : Layout) (R : Document) :
    List MemberObs → Except RErr Document
  | [] => Except.ok R
  | m :: rest =>
    match seenListPath lay R (findROMByCRC M m.size m.crc) with
    | Except.error e => Except.error e
    | Except.ok R2 => seenMembers M lay R2 rest

/-- The effect of one scanned file on the remaining document. -/
def verifyObs (M : Document) (lay : Layout) (R : Document) : Obs → Except RErr Document
  | Obs.loose sha size => seenList R (findROMBySHA1 M size sha)
  | Obs.zipped ms => seenMembers M lay R ms

/-- Fold the observations over a remaining document. -/
def verifyDocs (M : Document) (lay : Layout) : Document → List Obs → Except RErr Document
  | R, [] => Except.ok R
  | R, o :: rest =>
    match verifyObs M lay R o with
    | Except.error e => Except.error e
    | Except.ok R2 => verifyDocs M lay R2 rest

/-- A whole Verify run: the remaining document starts as the catalogue. -/
def verifyRun (M : Document) (lay : Layout) (obs : List Obs) : Except RErr Document :=
  verifyDocs M lay M obs

/-- Identities returned by the catalogue lookups for a member list. -/
def memberIds (M : Document) : List MemberObs → List RomId
  | [] => []
  | m :: t => (findROMByCRC M m.size m.crc).map romIdOf ++ memberIds M t

/-- Identities returned by the catalogue lookups for one observation. -/
def obsIds (M : Document) : Obs → List RomId
  | Obs.loose sha size => (findROMBySHA1 M size sha).map romIdOf
  | Obs.zipped ms => memberIds M ms

/-- Identities returned over a whole run. -/
def runIds (M : Document) : List Obs → List RomId
  | [] => []
  | o :: t => obsIds M o ++ runIds M t

/-- Whether one observation's content matches a rom node: a loose file by
length and SHA-1, a zip by some member's uncompressed size and CRC-32. -/
def obsMatches (r : RomEntry) : Obs → Bool
  | Obs.loose sha size => shaHit r size sha
  | Obs.zipped ms => ms.any fun m => crcHit r m.size m.crc

/-- Whether some scanned file matches a rom node. -/
def matchedAny (obs : List Obs) (r : RomEntry) : Bool := obs.any (obsMatches r)

/-! ## The verify command tail (main.go)

After a successful engine run the command counts the games left in the
remaining document; when some remain it writes the marshalled residual to
standard output, builds the exit-code-2 error value with
cli.NewExitError and then falls through to return nil, so the process
exit code comes from the nil return. -/

/-- An urfave/cli exit error value: message and exit code. -/
structure CliExitErr where
  message : String
  code : Nat
  deriving DecidableEq, Repr

/-- What the verify action does after the engine finished: what it writes
to standard output and the error value it returns. -/
structure CliResult where
  stdout : Option Document
  returned : Option CliExitErr
  deriving DecidableEq, Repr

/-- The tail of the verify action (and of the export action): the residual
is printed when games remain, the constructed NewExitError value is
dropped on the floor, and the function returns nil. -/
def verifyTail (remaining : Document) : CliResult :=
  let games := gamesCount remaining
  if 0 < games then
    let discarded : CliExitErr := { message := "", code := 2 }
    let _ := discarded
    { stdout := some remaining, returned := none }
  else { stdout := none, returned := none }

/-- The process exit code urfave/cli derives from the action's returned
error: the carried code for an exit error, zero for nil. -/
def exitCodeOf (r : CliResult) : Nat :=
  match r.returned with
  | some e => e.code
  | none => 0

/-! ## Datafile operation words and derived notions used by the theorems -/

/-- One public datafile operation besides Merge: marking a rom seen, the
two hash queries, the games count and marshalling.  The queries and the
serialisation read the documents without changing them; a failed seen
(AmbiguousRom) leaves the documents as they were. -/
inductive DfOp where
  | seen (rom : ROM)
  | findSha (size : Nat) (sha : String)
  | findCrc (size : Nat) (crc : String)
  | games
  | marshal
  deriving Repr

/-- Apply one non-Merge operation to a Datafile. -/
def applyDfOp (d : DatafileM) : DfOp → DatafileM
  | DfOp.seen rom =>
    match deleteROM d.output rom with
    | Except.ok o => { d with output := o }
    | Except.error _ => d
  | DfOp.findSha _ _ => d
  | DfOp.findCrc _ _ => d
  | DfOp.games => d
  | DfOp.marshal => d

/-- Apply a sequence of non-Merge operations. -/
def applyDfOps (d : DatafileM) (ops : List DfOp) : DatafileM :=
  ops.foldl applyDfOp d

/-- The remaining-inside-catalogue inclusion over rom identities. -/
def remSubCat (d : DatafileM) : Prop :=
  ∀ id ∈ (romEntries d.output).map idOf, id ∈ (romEntries d.input).map idOf

/-- The member list createOrUpdateZip writes: the prior members except any
named name, plus the new member, in the writer's name order. -/
def updatedMembers (prior : List ZipMember) (name : String) (c : FileData) : List ZipMember :=
  sortMembers (prior.filter (fun m => !(m.name == name)) ++ [{ name := name, data := c }])

/-- The members previously stored at a path (empty when the path is
missing or not an archive). -/
def priorMembers (fs : FS) (path : String) : List ZipMember :=
  match fsLookup fs path with
  | some f => f.zip.getD []
  | none => []

/-! ## Concrete fixtures for the witnesses and counterexamples -/

/-- A small catalogue: one game with one rom. -/
def fixFooCat : Document := [{ name := "Foo", roms := [{ name := "foo.smc", size := 4, crc := "aaaaaaaa", sha1 := "f00dd00d" }] }]

/-- A two-game catalogue. -/
def fixTwoCat : Document :=
  [{ name := "G", roms := [{ name := "r.bin", size := 4, crc := "cafe0001", sha1 := "b858cb28" }] },
   { name := "G2", roms := [{ name := "x.bin", size := 3, crc := "ffffffff", sha1 := "deadbeef" }] }]

/-- A game merged from a second dat file. -/
def fixMergedGame : GameNode := { name := "H", roms := [{ name := "h.bin", size := 7, crc := "12121212", sha1 := "abababab" }] }

/-- The target zip of the Clean scenario: the placed member plus a bogus
member that matches nothing. -/
def fixZipFile : File :=
  { data := { sha1 := "srcsha", size := 100, crc := "" },
    zip := some [{ name := "bogus.txt", data := { sha1 := "b1", size := 3, crc := "bbbbbbbb" } },
                 { name := "foo.smc", data := { sha1 := "f00dd00d", size := 4, crc := "aaaaaaaa" } }] }

/-- The Clean scenario state: the archive sits at its layout path. -/
def fixSt : PState := { fs := [("t/Foo.zip", fixZipFile)], rem := fixFooCat, log := [] }

/-- A MegaSD BIOS rom whose filename has the .bin extension. -/
def cexBiosRom : ROM :=
  { Game := "[BIOS] Mega-CD (USA)", Filename := "[BIOS] Mega-CD (USA).bin", Size := 0, CRC := "", SHA1 := "" }

/-- A MegaSD multi-disc rom. -/
def fixDiscRom : ROM :=
  { Game := "Game X (Disc 1) (USA)", Filename := "t1.cue", Size := 0, CRC := "", SHA1 := "" }

/-- A rom value naming the entry of fixTwoCat's first game. -/
def fixRomG : ROM := { Game := "G", Filename := "r.bin", Size := 4, CRC := "cafe0001", SHA1 := "b858cb28" }

/-- A filesystem with one archive beside which a temp file will be made. -/
def fixZipFS : FS :=
  [("d/a.zip", archiveFile [{ name := "n", data := { sha1 := "old", size := 9, crc := "oc" } },
                            { name := "b", data := { sha1 := "bs", size := 1, crc := "bc" } }])]

/-- The archive after updating member n: the deterministic rewrite holds
the other member and the new content in name order. -/
def fixZipOut : FS :=
  [("d/a.zip", archiveFile [{ name := "b", data := { sha1 := "bs", size := 1, crc := "bc" } },
                            { name := "n", data := { sha1 := "new", size := 3, crc := "nc" } }])]

deriving instance DecidableEq for Except

/-! ## Helper lemmas -/

theorem filterMap_ext_mem {α β : Type} (f g : α → Option β) (l : List α)
    (h : ∀ x ∈ l, f x = g x) : l.filterMap f = l.filterMap g := by
  induction l with
  | nil => rfl
  | cons a t ih =>
    simp only [List.filterMap_cons, h a (by simp)]
    rw [ih fun x hx => h x (by simp [hx])]

theorem idMem_true_iff (x : RomId) (l : List RomId) : idMem x l = true ↔ x ∈ l := by
  induction l with
  | nil => simp [idMem]
  | cons a t ih =>
    by_cases h : x = a
    · simp [idMem, h]
    · simp [idMem, h, ih]

theorem idMem_append (x : RomId) (a b : List RomId) :
    idMem x (a ++ b) = (idMem x a || idMem x b) := by
  induction a with
  | nil => simp [idMem]
  | cons y t ih =>
    by_cases h : x = y
    · simp [idMem, h]
    · simp [idMem, h, ih]

theorem mem_eq_of_length_le_one {α : Type} (l : List α) (h : l.length ≤ 1)
    (a b : α) (ha : a ∈ l) (hb : b ∈ l) : a = b := by
  match l with
  | [] => cases ha
  | [x] =>
    rw [List.mem_singleton] at ha hb
    rw [ha, hb]
  | x :: y :: t => simp at h

theorem stripIds_cons_drop (g : GameNode) (t : Document) (ids : List RomId)
    (h : ((g.roms.filter fun r => !idMem (g.name, r.name) ids).isEmpty && !g.roms.isEmpty) = true) :
    stripIds (g :: t) ids = stripIds t ids := by
  unfold stripIds
  rw [List.filterMap_cons, if_pos h]

theorem stripIds_cons_keep (g : GameNode) (t : Document) (ids : List RomId)
    (h : ((g.roms.filter fun r => !idMem (g.name, r.name) ids).isEmpty && !g.roms.isEmpty) = false) :
    stripIds (g :: t) ids =
      { name := g.name, roms := g.roms.filter fun r => !idMem (g.name, r.name) ids } :: stripIds t ids := by
  unfold stripIds
  rw [List.filterMap_cons, if_neg (by simp [h])]

theorem filter_map_id_pred (n : String) (rs : List RomEntry) (ids : List RomId) :
    (rs.map (fun r => (n, r))).filter (fun p => !idMem (idOf p) ids) =
      (rs.filter (fun r => !idMem (n, r.name) ids)).map (fun r => (n, r)) := by
  induction rs with
  | nil => rfl
  | cons r t ih =>
    simp only [idOf] at ih
    by_cases h : idMem (n, r.name) ids = true
    · simp [idOf, h, ih]
    · simp only [Bool.not_eq_true] at h
      simp [idOf, h, ih]

theorem romEntries_stripIds (doc : Document) (ids : List RomId) :
    romEntries (stripIds doc ids) =
      (romEntries doc).filter (fun p => !idMem (idOf p) ids) := by
  induction doc with
  | nil => rfl
  | cons g t ih =>
    cases hc : ((g.roms.filter fun r => !idMem (g.name, r.name) ids).isEmpty && !g.roms.isEmpty) with
    | true =>
      have hk : g.roms.filter (fun r => !idMem (g.name, r.name) ids) = [] :=
        List.isEmpty_iff.mp ((Bool.and_eq_true _ _).mp hc).1
      rw [stripIds_cons_drop g t ids hc, ih]
      simp only [romEntries, List.filter_append, filter_map_id_pred, hk]
      simp
    | false =>
      rw [stripIds_cons_keep g t ids hc]
      simp only [romEntries, List.filter_append, filter_map_id_pred, ih]

theorem stripIds_nil (doc : Document) : stripIds doc [] = doc := by
  induction doc with
  | nil => rfl
  | cons g t ih =>
    have hfil : g.roms.filter (fun r => !idMem (g.name, r.name) []) = g.roms := by
      apply List.filter_eq_self.mpr
      intro r _
      simp [idMem]
    have hcond : ((g.roms.filter fun r => !idMem (g.name, r.name) []).isEmpty && !g.roms.isEmpty) = false := by
      rw [hfil]
      cases h : g.roms.isEmpty <;> simp [h]
    rw [stripIds_cons_keep g t [] hcond, hfil, ih]

theorem isEmpty_false_of_filter_ne (rs : List RomEntry) (p : RomEntry → Bool)
    (h : (rs.filter p).isEmpty = false) : rs.isEmpty = false := by
  cases hr : rs.isEmpty
  · rfl
  · rw [List.isEmpty_iff] at hr
    rw [hr] at h
    simp at h

theorem stripIds_stripIds (doc : Document) (ids more : List RomId) :
    stripIds (stripIds doc ids) more = stripIds doc (ids ++ more) := by
  induction doc with
  | nil => rfl
  | cons g t ih =>
    have hk : (g.roms.filter fun r => !idMem (g.name, r.name) ids).filter
          (fun r => !idMem (g.name, r.name) more) =
        g.roms.filter fun r => !idMem (g.name, r.name) (ids ++ more) := by
      rw [List.filter_filter]
      apply List.filter_congr
      intro r _
      rw [idMem_append, Bool.not_or, Bool.and_comm]
    cases hc1 : ((g.roms.filter fun r => !idMem (g.name, r.name) ids).isEmpty && !g.roms.isEmpty) with
    | true =>
      have hk1 : g.roms.filter (fun r => !idMem (g.name, r.name) ids) = [] :=
        List.isEmpty_iff.mp ((Bool.and_eq_true _ _).mp hc1).1
      have hc12 : ((g.roms.filter fun r => !idMem (g.name, r.name) (ids ++ more)).isEmpty &&
          !g.roms.isEmpty) = true := by
        rw [← hk, hk1]
        simpa using ((Bool.and_eq_true _ _).mp hc1).2
      rw [stripIds_cons_drop g t ids hc1, stripIds_cons_drop g t (ids ++ more) hc12, ih]
    | false =>
      rw [stripIds_cons_keep g t ids hc1]
      cases hc2 : (((g.roms.filter fun r => !idMem (g.name, r.name) ids).filter
          fun r => !idMem (g.name, r.name) more).isEmpty &&
          !(g.roms.filter fun r => !idMem (g.name, r.name) ids).isEmpty) with
      | true =>
        have hk2 : (g.roms.filter fun r => !idMem (g.name, r.name) ids).filter
            (fun r => !idMem (g.name, r.name) more) = [] :=
          List.isEmpty_iff.mp ((Bool.and_eq_true _ _).mp hc2).1
        have hk1ne : (g.roms.filter fun r => !idMem (g.name, r.name) ids).isEmpty = false := by
          have := ((Bool.and_eq_true _ _).mp hc2).2
          cases h : (g.roms.filter fun r => !idMem (g.name, r.name) ids).isEmpty
          · rfl
          · rw [h] at this; simp at this
        have hrne : g.roms.isEmpty = false := isEmpty_false_of_filter_ne _ _ hk1ne
        have hc12 : ((g.roms.filter fun r => !idMem (g.name, r.name) (ids ++ more)).isEmpty &&
            !g.roms.isEmpty) = true := by
          rw [← hk, hk2, hrne]
          rfl
        rw [stripIds_cons_drop _ _ more hc2, ih, stripIds_cons_drop g t (ids ++ more) hc12]
      | false =>
        have hc12 : ((g.roms.filter fun r => !idMem (g.name, r.name) (ids ++ more)).isEmpty &&
            !g.roms.isEmpty) = false := by
          rw [← hk]
          cases hke : ((g.roms.filter fun r => !idMem (g.name, r.name) ids).filter
              fun r => !idMem (g.name, r.name) more).isEmpty
          · rfl
          · rw [hke] at hc2
            simp only [Bool.true_and] at hc2
            have hk1e : (g.roms.filter fun r => !idMem (g.name, r.name) ids).isEmpty = true := by
              cases h : (g.roms.filter fun r => !idMem (g.name, r.name) ids).isEmpty
              · rw [h] at hc2; simp at hc2
              · rfl
            rw [hk1e] at hc1
            simp only [Bool.true_and] at hc1
            rw [hc1]
            simp
        rw [stripIds_cons_keep _ _ more hc2, ih, stripIds_cons_keep g t (ids ++ more) hc12, hk]

theorem eraseROM_eq_strip (doc : Document) (rom : ROM) :
    eraseROM doc rom = stripIds doc [(rom.Game, rom.Filename)] := by
  unfold eraseROM stripIds
  apply filterMap_ext_mem
  intro g _
  by_cases hg : g.name = rom.Game
  · have hfil : (g.roms.filter fun r => !(r.name == rom.Filename)) =
        g.roms.filter fun r => !idMem (g.name, r.name) [(rom.Game, rom.Filename)] := by
      apply List.filter_congr
      intro r _
      by_cases hr : r.name = rom.Filename
      · simp [idMem, hg, hr]
      · simp [idMem, hg, hr, Prod.ext_iff]
    rw [if_pos hg, hfil]
  · have hfil : (g.roms.filter fun r => !idMem (g.name, r.name) [(rom.Game, rom.Filename)]) =
        g.roms := by
      apply List.filter_eq_self.mpr
      intro r _
      simp [idMem, Prod.ext_iff, hg]
    rw [if_neg hg, hfil]
    have hcond : (g.roms.isEmpty && !g.roms.isEmpty) = false := by
      cases h : g.roms.isEmpty <;> simp [h]
    rw [if_neg (by simp [hcond])]

theorem countAux (l : List (String × RomEntry)) (ids : List RomId) (id : RomId) :
    (l.filter (fun p => decide (idOf p = id) && !idMem (idOf p) ids)).length =
      if idMem id ids = true then 0 else (l.filter (fun p => idOf p = id)).length := by
  induction l with
  | nil => by_cases h : idMem id ids = true <;> simp [h]
  | cons p t ih =>
    by_cases hid : idOf p = id
    · have hdec : decide (idOf p = id) = true := decide_eq_true hid
      by_cases him : idMem id ids = true
      · have hpm : idMem (idOf p) ids = true := by rw [hid]; exact him
        rw [if_pos him] at ih ⊢
        rw [List.filter_cons, if_neg (by simp [hdec, hpm])]
        exact ih
      · have hpm : idMem (idOf p) ids = false := by
          rw [hid]
          cases h : idMem id ids
          · rfl
          · exact absurd h him
        rw [if_neg him] at ih ⊢
        rw [List.filter_cons, if_pos (by simp [hdec, hpm]),
          List.filter_cons, if_pos (by exact hdec)]
        simp [ih]
    · have hdec : decide (idOf p = id) = false := decide_eq_false hid
      rw [List.filter_cons, if_neg (by simp [hdec])]
      by_cases him : idMem id ids = true
      · rw [if_pos him] at ih ⊢
        exact ih
      · rw [if_neg him] at ih ⊢
        rw [List.filter_cons, if_neg (by simp [hdec])]
        exact ih

theorem countId_stripIds (doc : Document) (ids : List RomId) (id : RomId) :
    countId (stripIds doc ids) id =
      if idMem id ids = true then 0 else countId doc id := by
  unfold countId
  rw [romEntries_stripIds, List.filter_filter]
  have := countAux (romEntries doc) ids id
  convert this using 2

theorem deleteROM_ok_inv (R : Document) (rom : ROM) (R2 : Document)
    (h : deleteROM R rom = Except.ok R2) :
    countId R (rom.Game, rom.Filename) ≤ 1 ∧ R2 = eraseROM R rom := by
  unfold deleteROM at h
  by_cases hc : 1 < countId R (rom.Game, rom.Filename)
  · rw [if_pos hc] at h
    simp at h
  · rw [if_neg hc] at h
    injection h with h2
    exact ⟨Nat.not_lt.mp hc, h2.symm⟩

theorem seenList_cons_ok (R : Document) (rom : ROM) (rest : List ROM) (R' : Document)
    (h : seenList R (rom :: rest) = Except.ok R') :
    ∃ R2, deleteROM R rom = Except.ok R2 ∧ seenList R2 rest = Except.ok R' := by
  unfold seenList at h
  cases hd : deleteROM R rom with
  | error e => rw [hd] at h; simp at h
  | ok R2 => rw [hd] at h; exact ⟨R2, rfl, h⟩

theorem seenListPath_cons_ok (lay : Layout) (R : Document) (rom : ROM) (rest : List ROM)
    (R' : Document) (h : seenListPath lay R (rom :: rest) = Except.ok R') :
    ∃ R2, deleteROM R rom = Except.ok R2 ∧ seenListPath lay R2 rest = Except.ok R' := by
  unfold seenListPath at h
  cases hp : exportPath lay rom with
  | error e => rw [hp] at h; simp at h
  | ok v =>
    rw [hp] at h
    cases hd : deleteROM R rom with
    | error e => rw [hd] at h; simp at h
    | ok R2 => rw [hd] at h; exact ⟨R2, rfl, h⟩

theorem idMem_singleton_inv (id x : RomId) (h : idMem id [x] = true) : id = x := by
  by_cases he : id = x
  · exact he
  · simp [idMem, he] at h

/-- One successful seen step extends the deleted-identity view by the
rom's identity and shows that identity occurs at most once in the
catalogue. -/
theorem seen_step_strip (M : Document) (D : List RomId) (rom : ROM) (R2 : Document)
    (hinv : ∀ id, idMem id D = true → countId M id ≤ 1)
    (hdel : deleteROM (stripIds M D) rom = Except.ok R2) :
    R2 = stripIds M (D ++ [(rom.Game, rom.Filename)]) ∧
      (∀ id, idMem id (D ++ [(rom.Game, rom.Filename)]) = true → countId M id ≤ 1) := by
  obtain ⟨hcnt, hR2⟩ := deleteROM_ok_inv _ _ _ hdel
  have hcM : countId M (rom.Game, rom.Filename) ≤ 1 := by
    rw [countId_stripIds] at hcnt
    by_cases hmem : idMem (rom.Game, rom.Filename) D = true
    · exact hinv _ hmem
    · rw [if_neg hmem] at hcnt
      exact hcnt
  refine ⟨?_, ?_⟩
  · rw [hR2, eraseROM_eq_strip, stripIds_stripIds]
  · intro id hmem
    rw [idMem_append] at hmem
    rcases (Bool.or_eq_true _ _).mp hmem with h1 | h2
    · exact hinv _ h1
    · rw [idMem_singleton_inv _ _ h2]
      exact hcM

theorem seenList_strip (M : Document) (roms : List ROM) :
    ∀ (D : List RomId) (R' : Document),
    (∀ id, idMem id D = true → countId M id ≤ 1) →
    seenList (stripIds M D) roms = Except.ok R' →
    R' = stripIds M (D ++ roms.map romIdOf) ∧
      (∀ id, idMem id (D ++ roms.map romIdOf) = true → countId M id ≤ 1) := by
  induction roms with
  | nil =>
    intro D R' hinv h
    unfold seenList at h
    injection h with h2
    rw [List.map_nil, List.append_nil]
    exact ⟨h2.symm, hinv⟩
  | cons rom rest ih =>
    intro D R' hinv h
    obtain ⟨R2, hdel, hrest⟩ := seenList_cons_ok _ _ _ _ h
    obtain ⟨hR2, hinv'⟩ := seen_step_strip M D rom R2 hinv hdel
    rw [hR2] at hrest
    obtain ⟨hR', hinv''⟩ := ih (D ++ [(rom.Game, rom.Filename)]) R' hinv' hrest
    rw [List.map_cons, List.append_cons D (romIdOf rom)]
    exact ⟨hR', hinv''⟩

theorem seenListPath_strip (M : Document) (lay : Layout) (roms : List ROM) :
    ∀ (D : List RomId) (R' : Document),
    (∀ id, idMem id D = true → countId M id ≤ 1) →
    seenListPath lay (stripIds M D) roms = Except.ok R' →
    R' = stripIds M (D ++ roms.map romIdOf) ∧
      (∀ id, idMem id (D ++ roms.map romIdOf) = true → countId M id ≤ 1) := by
  induction roms with
  | nil =>
    intro D R' hinv h
    unfold seenListPath at h
    injection h with h2
    rw [List.map_nil, List.append_nil]
    exact ⟨h2.symm, hinv⟩
  | cons rom rest ih =>
    intro D R' hinv h
    obtain ⟨R2, hdel, hrest⟩ := seenListPath_cons_ok _ _ _ _ _ h
    obtain ⟨hR2, hinv'⟩ := seen_step_strip M D rom R2 hinv hdel
    rw [hR2] at hrest
    obtain ⟨hR', hinv''⟩ := ih (D ++ [(rom.Game, rom.Filename)]) R' hinv' hrest
    rw [List.map_cons, List.append_cons D (romIdOf rom)]
    exact ⟨hR', hinv''⟩

theorem seenMembers_strip (M : Document) (lay : Layout) (ms : List MemberObs) :
    ∀ (D : List RomId) (R' : Document),
    (∀ id, idMem id D = true → countId M id ≤ 1) →
    seenMembers M lay (stripIds M D) ms = Except.ok R' →
    R' = stripIds M (D ++ memberIds M ms) ∧
      (∀ id, idMem id (D ++ memberIds M ms) = true → countId M id ≤ 1) := by
  induction ms with
  | nil =>
    intro D R' hinv h
    unfold seenMembers at h
    injection h with h2
    rw [memberIds, List.append_nil]
    exact ⟨h2.symm, hinv⟩
  | cons m rest ih =>
    intro D R' hinv h
    unfold seenMembers at h
    cases hs : seenListPath lay (stripIds M D) (findROMByCRC M m.size m.crc) with
    | error e => rw [hs] at h; simp at h
    | ok R2 =>
      rw [hs] at h
      obtain ⟨hR2, hinv'⟩ := seenListPath_strip M lay _ D R2 hinv hs
      rw [hR2] at h
      obtain ⟨hR', hinv''⟩ := ih (D ++ (findROMByCRC M m.size m.crc).map romIdOf) R' hinv' h
      rw [memberIds, ← List.append_assoc]
      exact ⟨hR', hinv''⟩

theorem verifyDocs_strip (M : Document) (lay : Layout) (obs : List Obs) :
    ∀ (D : List RomId) (R' : Document),
    (∀ id, idMem id D = true → countId M id ≤ 1) →
    verifyDocs M lay (stripIds M D) obs = Except.ok R' →
    R' = stripIds M (D ++ runIds M obs) ∧
      (∀ id, idMem id (D ++ runIds M obs) = true → countId M id ≤ 1) := by
  induction obs with
  | nil =>
    intro D R' hinv h
    unfold verifyDocs at h
    injection h with h2
    rw [runIds, List.append_nil]
    exact ⟨h2.symm, hinv⟩
  | cons o rest ih =>
    intro D R' hinv h
    unfold verifyDocs at h
    cases ho : verifyObs M lay (stripIds M D) o with
    | error e => rw [ho] at h; simp at h
    | ok R2 =>
      rw [ho] at h
      have hstep : R2 = stripIds M (D ++ obsIds M o) ∧
          (∀ id, idMem id (D ++ obsIds M o) = true → countId M id ≤ 1) := by
        cases o with
        | loose sha size =>
          exact seenList_strip M _ D R2 hinv ho
        | zipped ms =>
          exact seenMembers_strip M lay ms D R2 hinv ho
      obtain ⟨hR2, hinv'⟩ := hstep
      rw [hR2] at h
      obtain ⟨hR', hinv''⟩ := ih (D ++ obsIds M o) R' hinv' h
      rw [runIds, ← List.append_assoc]
      exact ⟨hR', hinv''⟩

theorem mem_obsIds_iff (M : Document) (o : Obs) (id : RomId) :
    id ∈ obsIds M o ↔ ∃ p ∈ romEntries M, idOf p = id ∧ obsMatches p.2 o = true := by
  cases o with
  | loose sha size =>
    simp only [obsIds, findROMBySHA1, List.map_map, List.mem_map, List.mem_filter, obsMatches]
    constructor
    · rintro ⟨p, ⟨hp, hhit⟩, hid⟩
      exact ⟨p, hp, hid, hhit⟩
    · rintro ⟨p, hp, hid, hhit⟩
      exact ⟨p, ⟨hp, hhit⟩, hid⟩
  | zipped ms =>
    simp only [obsIds, obsMatches]
    induction ms with
    | nil => simp [memberIds]
    | cons m rest ih =>
      simp only [memberIds, List.mem_append, ih, findROMByCRC, List.map_map,
        List.mem_map, List.mem_filter]
      constructor
      · rintro (⟨p, ⟨hp, hhit⟩, hid⟩ | ⟨p, hp, hid, hany⟩)
        · exact ⟨p, hp, hid, by rw [List.any_cons]; exact (Bool.or_eq_true _ _).mpr (Or.inl hhit)⟩
        · exact ⟨p, hp, hid, by rw [List.any_cons]; exact (Bool.or_eq_true _ _).mpr (Or.inr hany)⟩
      · rintro ⟨p, hp, hid, hany⟩
        rw [List.any_cons] at hany
        rcases (Bool.or_eq_true _ _).mp hany with h1 | h2
        · exact Or.inl ⟨p, ⟨hp, h1⟩, hid⟩
        · exact Or.inr ⟨p, hp, hid, h2⟩

theorem mem_runIds_iff (M : Document) (obs : List Obs) (id : RomId) :
    id ∈ runIds M obs ↔ ∃ o ∈ obs, id ∈ obsIds M o := by
  induction obs with
  | nil => simp [runIds]
  | cons o rest ih => simp [runIds, List.mem_append, ih]

theorem idMem_runIds_eq_matched (M : Document) (obs : List Obs)
    (hcnt : ∀ id, idMem id (runIds M obs) = true → countId M id ≤ 1)
    (p : String × RomEntry) (hp : p ∈ romEntries M) :
    idMem (idOf p) (runIds M obs) = matchedAny obs p.2 := by
  cases hm : matchedAny obs p.2 with
  | true =>
    rw [idMem_true_iff, mem_runIds_iff]
    rw [matchedAny, List.any_eq_true] at hm
    obtain ⟨o, ho, hmat⟩ := hm
    exact ⟨o, ho, (mem_obsIds_iff M o (idOf p)).mpr ⟨p, hp, rfl, hmat⟩⟩
  | false =>
    cases hid : idMem (idOf p) (runIds M obs) with
    | false => rfl
    | true =>
      exfalso
      have hle : countId M (idOf p) ≤ 1 := hcnt _ hid
      rw [idMem_true_iff, mem_runIds_iff] at hid
      obtain ⟨o, ho, hoid⟩ := hid
      obtain ⟨q, hq, hqid, hqmat⟩ := (mem_obsIds_iff M o (idOf p)).mp hoid
      have hpq : p = q := by
        have hple : ((romEntries M).filter (fun x => idOf x = idOf p)).length ≤ 1 := hle
        apply mem_eq_of_length_le_one _ hple
        · rw [List.mem_filter]
          exact ⟨hp, by simp⟩
        · rw [List.mem_filter]
          exact ⟨hq, by simp [hqid]⟩
      have : matchedAny obs p.2 = true := by
        rw [matchedAny, List.any_eq_true]
        refine ⟨o, ho, ?_⟩
        rw [hpq]
        exact hqmat
      rw [this] at hm
      cases hm

/-- C1: for every manifest M and scanned file set, when Verify completes
without error the remaining document holds exactly the rom entries of M
whose content no scanned file matched: a loose file matches by byte
length and SHA-1, a zip member by uncompressed size and CRC-32; every
matched entry is removed and no unmatched entry is removed. -/
theorem verify_remaining_matches (M : Document) (lay : Layout) (obs : List Obs) (R : Document)
    (h : verifyRun M lay obs = Except.ok R) :
    romEntries R = (romEntries M).filter (fun p => !matchedAny obs p.2) := by
  unfold verifyRun at h
  have h0 : verifyDocs M lay (stripIds M []) obs = Except.ok R := by
    rw [stripIds_nil]
    exact h
  obtain ⟨hR, hinv⟩ := verifyDocs_strip M lay obs [] R (by intro id hm; simp [idMem] at hm) h0
  rw [List.nil_append] at hR hinv
  rw [hR, romEntries_stripIds]
  apply List.filter_congr
  intro p hp
  rw [idMem_runIds_eq_matched M obs hinv p hp]

/-- Witness for C1 at a concrete manifest and scan: the file with the
first game's length and SHA-1 is seen and only the second game remains. -/
theorem verify_remaining_matches_witness :
    romEntries [{ name := "G2", roms := [{ name := "x.bin", size := 3, crc := "ffffffff", sha1 := "deadbeef" }] }] =
      (romEntries fixTwoCat).filter (fun p => !matchedAny [Obs.loose "b858cb28" 4] p.2) :=
  verify_remaining_matches fixTwoCat Layout.simple [Obs.loose "b858cb28" 4]
    [{ name := "G2", roms := [{ name := "x.bin", size := 3, crc := "ffffffff", sha1 := "deadbeef" }] }]
    (by decide)

theorem stripIds_pred_congr (doc : Document) (ids ids' : List RomId)
    (h : ∀ x, idMem x ids = idMem x ids') : stripIds doc ids = stripIds doc ids' := by
  unfold stripIds
  apply filterMap_ext_mem
  intro g _
  have hfil : (g.roms.filter fun r => !idMem (g.name, r.name) ids) =
      g.roms.filter fun r => !idMem (g.name, r.name) ids' :=
    List.filter_congr (fun r _ => by rw [h])
  rw [hfil]

/-- C9: on a datafile whose remaining document has at most one node with
the rom's identity, seen is idempotent: the first call succeeds and a
second call succeeds changing nothing; and an AmbiguousRom failure can
only arise when the document holds two nodes with one identity. -/
theorem seen_idempotent_unique (doc : Document) (rom : ROM)
    (h : countId doc (rom.Game, rom.Filename) ≤ 1) :
    (∃ doc2, deleteROM doc rom = Except.ok doc2 ∧ deleteROM doc2 rom = Except.ok doc2) ∧
    (∀ d r, (∃ e, deleteROM d r = Except.error e) → 1 < countId d (r.Game, r.Filename)) := by
  constructor
  · refine ⟨eraseROM doc rom, ?_, ?_⟩
    · unfold deleteROM
      rw [if_neg (Nat.not_lt.mpr h)]
    · have hz : countId (eraseROM doc rom) (rom.Game, rom.Filename) = 0 := by
        rw [eraseROM_eq_strip, countId_stripIds, if_pos (by simp [idMem])]
      unfold deleteROM
      rw [if_neg (by rw [hz]; omega)]
      congr 1
      rw [eraseROM_eq_strip (eraseROM doc rom) rom, eraseROM_eq_strip doc rom, stripIds_stripIds]
      apply stripIds_pred_congr
      intro x
      by_cases hx : x = (rom.Game, rom.Filename) <;> simp [idMem, hx]
  · intro d r he
    obtain ⟨e, he⟩ := he
    by_cases hc : 1 < countId d (r.Game, r.Filename)
    · exact hc
    · unfold deleteROM at he
      rw [if_neg hc] at he
      exact absurd he (by simp)

/-- Witness for C9 at a concrete datafile: the unique entry is removed
once and the second call is a successful no-op. -/
theorem seen_idempotent_unique_witness :
    ∃ doc2, deleteROM fixTwoCat fixRomG = Except.ok doc2 ∧ deleteROM doc2 fixRomG = Except.ok doc2 :=
  (seen_idempotent_unique fixTwoCat fixRomG (by decide)).1

/-- Counterexample to C3 as stated: Merge appends the merged games to the
remaining document only, so immediately after a successful Merge the
remaining document holds an identity the catalogue lacks. -/
theorem merge_breaks_inclusion_cex :
    ∃ d2, mergeDatafile (newDatafile fixTwoCat) [DatElem.game fixMergedGame] = Except.ok d2 ∧
      ¬ remSubCat d2 := by
  refine ⟨{ input := fixTwoCat, output := fixTwoCat ++ [fixMergedGame] }, rfl, ?_⟩
  intro hsub
  exact absurd (hsub ("H", "h.bin") (by decide)) (by decide)

/-- C3 amended: every public operation except Merge (construction, the
hash queries, seen, the games count, marshalling) preserves the inclusion
of the remaining document's rom identities in the catalogue's. -/
theorem nonmerge_ops_preserve_inclusion (doc : Document) (ops : List DfOp) :
    remSubCat (applyDfOps (newDatafile doc) ops) := by
  have step : ∀ d op, remSubCat d → remSubCat (applyDfOp d op) := by
    intro d op hd
    cases op with
    | seen rom =>
      show remSubCat (match deleteROM d.output rom with
        | Except.ok o => { d with output := o }
        | Except.error _ => d)
      cases hdel : deleteROM d.output rom with
      | error e => exact hd
      | ok o =>
        obtain ⟨_, ho⟩ := deleteROM_ok_inv _ _ _ hdel
        intro id hid
        apply hd
        have hid2 : id ∈ (romEntries o).map idOf := hid
        rw [ho, eraseROM_eq_strip, romEntries_stripIds] at hid2
        obtain ⟨p, hp, hpid⟩ := List.mem_map.mp hid2
        exact List.mem_map.mpr ⟨p, (List.mem_filter.mp hp).1, hpid⟩
    | findSha size sha => exact hd
    | findCrc size crc => exact hd
    | games => exact hd
    | marshal => exact hd
  have run : ∀ (ops2 : List DfOp) (d : DatafileM), remSubCat d → remSubCat (applyDfOps d ops2) := by
    intro ops2
    induction ops2 with
    | nil => intro d hd; exact hd
    | cons op rest ih =>
      intro d hd
      exact ih _ (step d op hd)
  apply run
  intro id hid
  exact hid

/-- C10: the engine constructor errors exactly when the datafile or the
logger is missing; a missing layout is replaced by SimpleCompressed, so
every constructed engine carries a usable layout. -/
theorem new_engine_checks (df : Option DatafileM) (lg : Option LoggerM) (dest : Bool)
    (lay : Option Layout) :
    ((∃ e, romboNew df lg dest lay = Except.error e) ↔ (df = none ∨ lg = none)) ∧
    (∀ r, romboNew df lg dest lay = Except.ok r → r.layout = lay.getD Layout.simple) ∧
    (df ≠ none → lg ≠ none → lay = none →
      ∃ r, romboNew df lg dest lay = Except.ok r ∧ r.layout = Layout.simple) := by
  cases df with
  | none => simp [romboNew]
  | some d =>
    cases lg with
    | none => simp [romboNew]
    | some l =>
      refine ⟨by simp [romboNew], ?_, ?_⟩
      · intro r hr
        injection hr with h2
        rw [← h2]
      · intro _ _ hlay
        subst hlay
        exact ⟨_, rfl, rfl⟩

/-- Witness for C10: with a datafile and a logger but no layout the
constructor succeeds and the engine carries the SimpleCompressed layout. -/
theorem new_engine_checks_witness :
    ∃ r, romboNew (some (newDatafile fixTwoCat)) (some ()) false none = Except.ok r ∧
      r.layout = Layout.simple :=
  (new_engine_checks (some (newDatafile fixTwoCat)) (some ()) false none).2.2
    (by simp) (by simp) rfl

/-- C2 is a code bug: with a non-empty residual the verify action writes
the residual to standard output and builds the exit-code-2 error, but it
never returns that value, so the action returns nil and the process exits
with code 0 where the documented behaviour is exit code 2. -/
theorem verify_residual_exits_zero :
    0 < gamesCount fixTwoCat ∧
    (verifyTail fixTwoCat).stdout = some fixTwoCat ∧
    exitCodeOf (verifyTail fixTwoCat) = 0 :=
  ⟨by decide, rfl, rfl⟩

/-- Counterexample to C6 as stated: a rom whose filename has the .bin
extension but carries the BIOS marker with a recognised console tag is
routed to the BIOS directory, not to the Mega-CD & Sega CD tree. -/
theorem megasd_bios_bin_cex :
    extOf cexBiosRom.Filename = ".bin" ∧
    megaSDExportPath cexBiosRom = Except.ok ("BIOS/[BIOS] Mega-CD (USA).bin", false, "") ∧
    "BIOS/[BIOS] Mega-CD (USA).bin" ≠
      goJoin ["Mega-CD & Sega CD", "M", discStrip cexBiosRom.Game, cexBiosRom.Filename] := by
  refine ⟨by decide, by decide, by decide⟩

/-- C6 amended: for every rom whose filename ends in .cue or .bin, does
not carry the BIOS marker with a recognised console tag, and whose game
name yields a bucket letter, the MegaSD layout stores the file loose at
Mega-CD & Sega CD/bucket/stripped-game/filename, where the stripped game
name has the per-disc tags removed (the Disc pattern and the documented
Supreme Warrior and Slam City tags, each with RE2 whitespace between the
words), so all discs of one game share a directory. -/
theorem megasd_cuebin_path (rom : ROM) (b : String)
    (h1 : extOf rom.Filename = ".cue" ∨ extOf rom.Filename = ".bin")
    (h2 : megaSDBios rom.Filename = false)
    (h3 : firstAlphanumeric rom.Game = Except.ok b) :
    megaSDExportPath rom =
      Except.ok (goJoin ["Mega-CD & Sega CD", b, discStrip rom.Game, rom.Filename], false, "") := by
  unfold megaSDExportPath
  simp only [h3]
  have hsms : ¬ extOf rom.Filename = ".sms" := by
    rcases h1 with h | h <;> rw [h] <;> decide
  have hmd : ¬ extOf rom.Filename = ".md" := by
    rcases h1 with h | h <;> rw [h] <;> decide
  have h32x : ¬ extOf rom.Filename = ".32x" := by
    rcases h1 with h | h <;> rw [h] <;> decide
  rw [if_neg (by simp [h2]), if_neg hsms, if_neg hmd, if_neg h32x, if_pos h1]

/-- Witness for the amended C6 at a disc rom: disc one of Game X lands in
the shared Game X directory. -/
theorem megasd_cuebin_path_witness :
    megaSDExportPath fixDiscRom =
      Except.ok ("Mega-CD & Sega CD/G/Game X (USA)/t1.cue", false, "") := by
  have h := megasd_cuebin_path fixDiscRom "G" (Or.inl (by decide)) (by decide) (by decide)
  rw [h]
  decide

/-- C4 is a code bug: on an archive with one correctly placed member and
one bogus member, Clean's zip handler (destructive mode) only logs the
intended removal and returns with the archive byte-identical on disk;
the prune-and-rename code sits after an unconditional return and the
canonical-rewrite comparison does not exist in the function. -/
theorem clean_mixed_evictees_noop :
    readZipH true Layout.simple fixFooCat "t" fixSt "t/Foo.zip" =
      ({ fs := fixSt.fs, rem := fixFooCat, log := ["would remove bogus.txt from t/Foo.zip"] }, none) ∧
    fsLookup ((readZipH true Layout.simple fixFooCat "t" fixSt "t/Foo.zip").1).fs "t/Foo.zip" =
      some fixZipFile :=
  ⟨by decide, by decide⟩

theorem fsLookup_erase_other (fs : FS) (p q : String) (h : ¬ q = p) :
    fsLookup (fsErase fs p) q = fsLookup fs q := by
  induction fs with
  | nil => rfl
  | cons kv t ih =>
    obtain ⟨k, f⟩ := kv
    by_cases hk : k = p
    · have hkq : ¬ k = q := by
        rw [hk]
        intro hq
        exact h hq.symm
      have hpq : ¬ p = q := fun hpq => h hpq.symm
      simp [fsErase, fsLookup, hk, hkq, hpq, ih]
    · by_cases hq : k = q
      · simp [fsErase, fsLookup, hk, hq, h]
      · simp [fsErase, fsLookup, hk, hq, ih]

theorem fsErase_of_lookup_none (fs : FS) (p : String) (h : fsLookup fs p = none) :
    fsErase fs p = fs := by
  induction fs with
  | nil => rfl
  | cons kv t ih =>
    obtain ⟨k, f⟩ := kv
    by_cases hk : k = p
    · rw [fsLookup, if_pos hk] at h
      cases h
    · rw [fsLookup, if_neg hk] at h
      simp [fsErase, hk, ih h]

theorem fsErase_insert_fresh (fs : FS) (p : String) (e : File)
    (h : fsLookup fs p = none) : fsErase (fsInsert fs p e) p = fs := by
  unfold fsInsert
  rw [fsErase, if_pos rfl, fsErase_of_lookup_none fs p h, fsErase_of_lookup_none fs p h]

theorem fsLookup_insert_self (fs : FS) (p : String) (f : File) :
    fsLookup (fsInsert fs p f) p = some f := by
  simp [fsInsert, fsLookup]

theorem fsLookup_insert_other (fs : FS) (p : String) (f : File) (q : String) (h : ¬ q = p) :
    fsLookup (fsInsert fs p f) q = fsLookup fs q := by
  rw [fsInsert, fsLookup, if_neg (fun hp => h hp.symm), fsLookup_erase_other fs p q h]

theorem mem_insertMember (a m : ZipMember) (l : List ZipMember) :
    a ∈ insertMember m l ↔ a = m ∨ a ∈ l := by
  induction l with
  | nil => simp [insertMember]
  | cons x t ih =>
    by_cases h : strLe m.name x.name = true
    · simp [insertMember, h]
    · simp only [insertMember, if_neg h, List.mem_cons, ih]
      tauto

theorem mem_sortMembers (a : ZipMember) (l : List ZipMember) :
    a ∈ sortMembers l ↔ a ∈ l := by
  induction l with
  | nil => simp [sortMembers]
  | cons m t ih => simp [sortMembers, mem_insertMember, ih]

theorem mem_updatedMembers (prior : List ZipMember) (name : String) (c : FileData) (m : ZipMember) :
    m ∈ updatedMembers prior name c ↔
      (m ∈ prior ∧ ¬ m.name = name) ∨ m = { name := name, data := c } := by
  unfold updatedMembers
  rw [mem_sortMembers]
  simp [List.mem_append, List.mem_filter]

/-- C7: createOrUpdateZip builds the target in a dot-prefixed temp file
beside the path and renames it into place.  On error the filesystem is
exactly as before (the deferred remove deletes the temp file).  On
success the path holds the deterministic archive whose members are
exactly the prior members minus any named name plus the new member read
from the reader, the temp name is gone, every other path is untouched,
and a previously missing path yields the singleton archive. -/
theorem createOrUpdateZip_correct (fs : FS) (path name : String) (reader : Except RErr FileData)
    (htmp : fsLookup fs (tempName path) = none) (hne : ¬ tempName path = path) :
    (∀ e fs', createOrUpdateZip fs path name reader = (some e, fs') → fs' = fs) ∧
    (∀ fs', createOrUpdateZip fs path name reader = (none, fs') →
      ∃ c, reader = Except.ok c ∧
        fsLookup fs' path = some (archiveFile (updatedMembers (priorMembers fs path) name c)) ∧
        (∀ m, m ∈ updatedMembers (priorMembers fs path) name c ↔
          (m ∈ priorMembers fs path ∧ ¬ m.name = name) ∨ m = { name := name, data := c }) ∧
        fsLookup fs' (tempName path) = none ∧
        (∀ q, ¬ q = path → ¬ q = tempName path → fsLookup fs' q = fsLookup fs q) ∧
        (fsLookup fs path = none →
          updatedMembers (priorMembers fs path) name c = [{ name := name, data := c }])) := by
  have hl1 : fsLookup (fsInsert fs (tempName path) emptyFile) path = fsLookup fs path :=
    fsLookup_insert_other fs (tempName path) emptyFile path (fun hp => hne hp.symm)
  have herase : fsErase (fsInsert fs (tempName path) emptyFile) (tempName path) = fs :=
    fsErase_insert_fresh fs (tempName path) emptyFile htmp
  constructor
  · intro e fs' hrun
    simp only [createOrUpdateZip] at hrun
    rw [hl1] at hrun
    cases hp : fsLookup fs path with
    | none =>
      simp only [hp] at hrun
      cases hr : reader with
      | error e2 =>
        simp only [hr] at hrun
        injection hrun with h1 h2
        rw [← h2, herase]
      | ok c =>
        simp only [hr] at hrun
        injection hrun with h1 h2
        cases h1
    | some f =>
      simp only [hp] at hrun
      cases hz : f.zip with
      | none =>
        simp only [hz] at hrun
        injection hrun with h1 h2
        rw [← h2, herase]
      | some members =>
        simp only [hz] at hrun
        cases hr : reader with
        | error e2 =>
          simp only [hr] at hrun
          injection hrun with h1 h2
          rw [← h2, herase]
        | ok c =>
          simp only [hr] at hrun
          injection hrun with h1 h2
          cases h1
  · intro fs' hrun
    simp only [createOrUpdateZip] at hrun
    rw [hl1] at hrun
    cases hp : fsLookup fs path with
    | none =>
      simp only [hp] at hrun
      cases hr : reader with
      | error e2 =>
        simp only [hr] at hrun
        injection hrun with h1 h2
        cases h1
      | ok c =>
        simp only [hr] at hrun
        injection hrun with h1 h2
        rw [herase] at h2
        have hprior : priorMembers fs path = [] := by
          unfold priorMembers
          rw [hp]
        refine ⟨c, rfl, ?_, ?_, ?_, ?_, ?_⟩
        · rw [← h2, fsLookup_insert_self, hprior]
          rfl
        · intro m
          exact mem_updatedMembers _ _ _ _
        · rw [← h2, fsLookup_insert_other fs path _ (tempName path) hne, htmp]
        · intro q hq1 hq2
          rw [← h2, fsLookup_insert_other fs path _ q hq1]
        · intro _
          rw [hprior]
          rfl
    | some f =>
      simp only [hp] at hrun
      cases hz : f.zip with
      | none =>
        simp only [hz] at hrun
        injection hrun with h1 h2
        cases h1
      | some members =>
        simp only [hz] at hrun
        cases hr : reader with
        | error e2 =>
          simp only [hr] at hrun
          injection hrun with h1 h2
          cases h1
        | ok c =>
          simp only [hr] at hrun
          injection hrun with h1 h2
          rw [herase] at h2
          have hprior : priorMembers fs path = members := by
            simp [priorMembers, hp, hz]
          refine ⟨c, rfl, ?_, ?_, ?_, ?_, ?_⟩
          · rw [← h2, fsLookup_insert_self, hprior]
            rfl
          · intro m
            exact mem_updatedMembers _ _ _ _
          · rw [← h2, fsLookup_insert_other fs path _ (tempName path) hne, htmp]
          · intro q hq1 hq2
            rw [← h2, fsLookup_insert_other fs path _ q hq1]
          · intro hnone
            exact Option.noConfusion hnone

/-- Witness for C7: updating member n of the concrete archive succeeds and
replaces it, keeping member b, with the temp path gone. -/
theorem createOrUpdateZip_correct_witness :
    ∃ c, (Except.ok { sha1 := "new", size := 3, crc := "nc" } : Except RErr FileData) = Except.ok c ∧
      fsLookup fixZipOut "d/a.zip" =
        some (archiveFile (updatedMembers (priorMembers fixZipFS "d/a.zip") "n" c)) ∧
      (∀ m, m ∈ updatedMembers (priorMembers fixZipFS "d/a.zip") "n" c ↔
        (m ∈ priorMembers fixZipFS "d/a.zip" ∧ ¬ m.name = "n") ∨ m = { name := "n", data := c }) ∧
      fsLookup fixZipOut (tempName "d/a.zip") = none ∧
      (∀ q, ¬ q = "d/a.zip" → ¬ q = tempName "d/a.zip" →
        fsLookup fixZipOut q = fsLookup fixZipFS q) ∧
      (fsLookup fixZipFS "d/a.zip" = none →
        updatedMembers (priorMembers fixZipFS "d/a.zip") "n" c = [{ name := "n", data := c }]) :=
  (createOrUpdateZip_correct fixZipFS "d/a.zip" "n"
      (Except.ok { sha1 := "new", size := 3, crc := "nc" }) (by decide) (by decide)).2
    fixZipOut (by decide)

theorem cleanFileH_fs (lay : Layout) (dir file : String) (roms : List ROM) (st : PState) :
    ((cleanFileH false lay dir file roms st).1).fs = st.fs := by
  unfold cleanFileH
  cases hm : cleanMatch lay dir file roms with
  | error e => rfl
  | ok b => cases b <;> rfl

theorem readZipH_foldl_fs (file : String) (names : List String) :
    ∀ s : PState,
      (names.foldl (fun s n => addLog s ("would remove " ++ n ++ " from " ++ file)) s).fs = s.fs := by
  induction names with
  | nil => intro s; rfl
  | cons n t ih =>
    intro s
    rw [List.foldl_cons, ih]
    rfl

theorem readZipH_fs (lay : Layout) (M : Document) (dir : String) (st : PState) (file : String) :
    ((readZipH false lay M dir st file).1).fs = st.fs := by
  unfold readZipH
  repeat' split
  all_goals first
  | rfl
  | exact readZipH_foldl_fs file _ st
  | simp_all

theorem verifyFileH_fs (roms : List ROM) (st : PState) :
    ((verifyFileH st roms).1).fs = st.fs := by
  induction roms generalizing st with
  | nil => rfl
  | cons rom rest ih =>
    unfold verifyFileH
    cases hd : deleteROM st.rem rom with
    | error e => rfl
    | ok r2 => exact ih _

theorem exportFileCopy_fs (dir file sha : String) (size : Nat) (rom : ROM)
    (relpath : String) (zipped : Bool) (name : String) (st : PState) :
    ((exportFileCopy false dir file sha size rom relpath zipped name st).1).fs = st.fs := by
  have ha : ∀ (f fp n : String) (s : PState), exportFileArchive false f fp n s = (s, none) :=
    fun _ _ _ _ => rfl
  unfold exportFileCopy
  simp only [ha]
  repeat' split
  all_goals first
  | rfl
  | simp_all

theorem exportFileRoms_fs (lay : Layout) (dir file sha : String) (size : Nat)
    (roms : List ROM) (st : PState) :
    ((exportFileRoms false lay dir file sha size st roms).1).fs = st.fs := by
  induction roms generalizing st with
  | nil => rfl
  | cons rom rest ih =>
    unfold exportFileRoms
    cases hp : exportPath lay rom with
    | error e => rfl
    | ok v =>
      obtain ⟨relpath, zipped, name⟩ := v
      show ((match exportFileCopy false dir file sha size rom relpath zipped name st with
        | (st2, some e) => (st2, some e)
        | (st2, none) =>
          match deleteROM st2.rem rom with
          | Except.error e => (st2, some e)
          | Except.ok r2 =>
            exportFileRoms false lay dir file sha size { st2 with rem := r2 } rest).1).fs = st.fs
      cases hc : exportFileCopy false dir file sha size rom relpath zipped name st with
      | mk st2 opt =>
        have hfs : st2.fs = st.fs := by
          have h2 := exportFileCopy_fs dir file sha size rom relpath zipped name st
          rw [hc] at h2
          exact h2
        cases opt with
        | some e => exact hfs
        | none =>
          show ((match deleteROM st2.rem rom with
            | Except.error e => (st2, some e)
            | Except.ok r2 =>
              exportFileRoms false lay dir file sha size { st2 with rem := r2 } rest).1).fs = st.fs
          cases hd : deleteROM st2.rem rom with
          | error e => exact hfs
          | ok r2 =>
            rw [ih]
            exact hfs

theorem exportZipActed_fs (dir file : String) (m : ZipMember) (rom : ROM)
    (relpath : String) (zipped : Bool) (name : String) (st : PState) :
    (exportZipActed false dir file m rom relpath zipped name st).fs = st.fs := by
  unfold exportZipActed
  repeat' split
  all_goals first
  | rfl
  | simp_all
  all_goals split
  all_goals rfl

theorem exportZipRoms_fs (lay : Layout) (dir file : String) (m : ZipMember)
    (roms : List ROM) (st : PState) :
    ((exportZipRoms false lay dir file m st roms).1).fs = st.fs := by
  induction roms generalizing st with
  | nil => rfl
  | cons rom rest ih =>
    unfold exportZipRoms
    cases hp : exportPath lay rom with
    | error e => rfl
    | ok v =>
      obtain ⟨relpath, zipped, name⟩ := v
      have hfs := exportZipActed_fs dir file m rom relpath zipped name st
      show ((match deleteROM (exportZipActed false dir file m rom relpath zipped name st).rem rom with
        | Except.error e => (exportZipActed false dir file m rom relpath zipped name st, some e)
        | Except.ok r2 =>
          exportZipRoms false lay dir file m
            { exportZipActed false dir file m rom relpath zipped name st with rem := r2 } rest).1).fs = st.fs
      cases hd : deleteROM (exportZipActed false dir file m rom relpath zipped name st).rem rom with
      | error e => exact hfs
      | ok r2 =>
        rw [ih]
        exact hfs

theorem exportZipMembers_fs (lay : Layout) (M : Document) (dir file : String)
    (ms : List ZipMember) (st : PState) :
    ((exportZipMembers false lay M dir file st ms).1).fs = st.fs := by
  induction ms generalizing st with
  | nil => rfl
  | cons m rest ih =>
    unfold exportZipMembers
    cases hr : exportZipRoms false lay dir file m st (findROMByCRC M m.data.size m.data.crc) with
    | mk st2 opt =>
      have hfs : st2.fs = st.fs := by
        have h2 := exportZipRoms_fs lay dir file m (findROMByCRC M m.data.size m.data.crc) st
        rw [hr] at h2
        exact h2
      cases opt with
      | some e => exact hfs
      | none =>
        rw [ih]
        exact hfs

theorem exportZipH_fs (lay : Layout) (M : Document) (dir : String) (st : PState) (file : String) :
    ((exportZipH false lay M dir st file).1).fs = st.fs := by
  unfold exportZipH
  repeat' split
  all_goals first
  | rfl
  | exact exportZipMembers_fs lay M dir file _ st

theorem exportLooseStep_fs (lay : Layout) (M : Document) (dir : String)
    (st : PState) (file : String) :
    ((exportLooseStep false lay M dir st file).1).fs = st.fs := by
  unfold exportLooseStep
  cases hl : fsLookup st.fs file with
  | none => rfl
  | some f => exact exportFileRoms_fs lay dir file f.data.sha1 f.data.size _ st

theorem cleanLooseStep_fs (lay : Layout) (M : Document) (dir : String)
    (st : PState) (file : String) :
    ((cleanLooseStep false lay M dir st file).1).fs = st.fs := by
  unfold cleanLooseStep
  cases hl : fsLookup st.fs file with
  | none => rfl
  | some f => exact cleanFileH_fs lay dir file _ st

theorem runSteps_fs (step : PState → String → PState × Option RErr)
    (hstep : ∀ s f, ((step s f).1).fs = s.fs) (l : List String) (st : PState) :
    ((runSteps step st l).1).fs = st.fs := by
  induction l generalizing st with
  | nil => rfl
  | cons f rest ih =>
    unfold runSteps
    cases hs : step st f with
    | mk st2 opt =>
      have hfs : st2.fs = st.fs := by
        have h2 := hstep st f
        rw [hs] at h2
        exact h2
      cases opt with
      | some e => exact hfs
      | none =>
        rw [ih]
        exact hfs

/-- C8: with the destructive flag off, Export and Clean leave the on-disk
tree untouched on every input: no file is created, copied, overwritten,
deleted or renamed and no archive is rewritten; all intended mutations
are only logged. -/
theorem dry_run_preserves_disk (lay : Layout) (M : Document) (dir : String)
    (loose zips : List String) (st : PState) :
    ((exportRun false lay M dir loose zips st).1).fs = st.fs ∧
    ((cleanRun false lay M dir loose zips st).1).fs = st.fs := by
  constructor
  · unfold exportRun
    cases h1 : runSteps (exportLooseStep false lay M dir) st loose with
    | mk st2 opt =>
      have hfs : st2.fs = st.fs := by
        have h2 := runSteps_fs (exportLooseStep false lay M dir)
          (exportLooseStep_fs lay M dir) loose st
        rw [h1] at h2
        exact h2
      cases opt with
      | some e => exact hfs
      | none =>
        rw [runSteps_fs (exportZipH false lay M dir) (exportZipH_fs lay M dir) zips st2]
        exact hfs
  · unfold cleanRun
    cases h1 : runSteps (cleanLooseStep false lay M dir) st loose with
    | mk st2 opt =>
      have hfs : st2.fs = st.fs := by
        have h2 := runSteps_fs (cleanLooseStep false lay M dir)
          (cleanLooseStep_fs lay M dir) loose st
        rw [h1] at h2
        exact h2
      cases opt with
      | some e => exact hfs
      | none =>
        rw [runSteps_fs (readZipH false lay M dir) (readZipH_fs lay M dir) zips st2]
        exact hfs

/-- C5: for every rom, seen searches the remaining document for
game[@name]/rom[@name]; more than one match fails with AmbiguousRom and
removes nothing; exactly one match unlinks that rom node, and unlinks the
parent game exactly when it then has no rom children.  deleteROM agrees
with the operation transcribed from the spec's words on every input. -/
theorem deleteROM_matches_spec (doc : Document) (rom : ROM) :
    deleteROM doc rom = specSeen doc rom := by
  by_cases h : 1 < ((romEntries doc).filter fun p => decide (idOf p = (rom.Game, rom.Filename))).length
  · simp [deleteROM, specSeen, countId, h]
  · simp only [deleteROM, specSeen, countId, eraseROM, if_neg h]
    congr 1
    apply filterMap_ext_mem
    intro g _
    by_cases hg : g.name = rom.Game
    · have hfil : g.roms.filter (fun r => !(r.name == rom.Filename)) =
          g.roms.filter (fun r => !(g.name = rom.Game ∧ r.name = rom.Filename)) := by
        apply List.filter_congr
        intro r _
        by_cases hr : r.name = rom.Filename
        · simp [hr, hg]
        · simp [hr, hg]
      simp only [hg, if_pos rfl] at *
      rw [← hfil]
      by_cases hk : g.roms.filter (fun r => !(r.name == rom.Filename)) = []
      · by_cases hrm : g.roms = []
        · simp [hk, hrm]
        · simp [hk, hrm, List.length_pos, List.isEmpty_iff]
      · have hlt : ¬((g.roms.filter (fun r => !(r.name == rom.Filename))).length < g.roms.length ∧
            g.roms.filter (fun r => !(r.name == rom.Filename)) = []) := by
          intro hc
          exact hk hc.2
        simp [hk, hlt, List.isEmpty_iff]
    · have hfil : g.roms.filter (fun r => !(g.name = rom.Game ∧ r.name = rom.Filename)) = g.roms := by
        apply List.filter_eq_self.mpr
        intro r _
        simp [hg]
      simp [hg, hfil]

end Rombo
